import Mathlib

/- Verification of the fon audio library: shallow embedding of src/samp.rs,
src/frame.rs, src/stream.rs, src/audio.rs and src/sink.rs.

Finite IEEE-754 binary32 (f32) values are dyadic rationals; the model
represents them as an integer significand with a power-of-two denominator and
applies an explicit round-to-nearest, ties-to-even step after every
arithmetic operation, exactly as IEEE-754 prescribes for values in the
normal range.  Every float value reached in this development lies in the
normal range of binary32 (magnitude between 2 ^ (-126) and 2 ^ 127 or zero),
where this model agrees bit-for-bit with IEEE-754 semantics.  Machine
integers are modelled as Int with explicit wrapping or clamping where the
source wraps or clamps. -/

namespace Fon

/-- Dyadic rational n / 2 ^ k: the value space containing all finite binary32
floats (and all intermediate exact products and sums of such floats). -/
structure Dy where
  n : Int
  k : Nat
deriving DecidableEq

/-- Rational value denoted by a dyadic. -/
def Dy.val (a : Dy) : ℚ := (a.n : ℚ) / 2 ^ a.k

/-- Number of bits by which m exceeds 24 bits, computed with explicit fuel so
that the definition reduces structurally (fuel 64 covers every magnitude
reached in this development). -/
def excessBits (fuel : Nat) (m : Nat) : Nat :=
  match fuel with
  | 0 => 0
  | f + 1 => if m < 2 ^ 24 then 0 else excessBits f (m / 2) + 1

/-- Round a / 2 ^ s to the nearest integer, ties to even. -/
def rneNat (a s : Nat) : Nat :=
  if a % 2 ^ s < 2 ^ (s - 1) then a / 2 ^ s
  else if 2 ^ (s - 1) < a % 2 ^ s then a / 2 ^ s + 1
  else if (a / 2 ^ s) % 2 = 0 then a / 2 ^ s else a / 2 ^ s + 1

/-- Round a dyadic to the nearest binary32 value (at most 24 significand
bits), ties to even.  Faithful to IEEE-754 round-to-nearest-even for results
in the normal range, which covers every rounding performed below. -/
def rnd32 (a : Dy) : Dy :=
  if excessBits 64 a.n.natAbs = 0 then a
  else
    ⟨if a.n < 0 then -(rneNat a.n.natAbs (excessBits 64 a.n.natAbs) : Int)
      else (rneNat a.n.natAbs (excessBits 64 a.n.natAbs) : Int),
      a.k - excessBits 64 a.n.natAbs⟩

/-- Binary32 addition: exact sum followed by rounding. -/
def fadd (a b : Dy) : Dy :=
  rnd32 ⟨a.n * 2 ^ (max a.k b.k - a.k) + b.n * 2 ^ (max a.k b.k - b.k), max a.k b.k⟩

/-- Binary32 multiplication: exact product followed by rounding. -/
def fmul (a b : Dy) : Dy := rnd32 ⟨a.n * b.n, a.k + b.k⟩

/-- The f32 operation value.clamp(-1.0, 1.0): comparisons are exact, no
rounding is involved. -/
def fclampOne (a : Dy) : Dy :=
  if a.n < -(2 ^ a.k : Int) then ⟨-1, 0⟩
  else if (2 ^ a.k : Int) < a.n then ⟨1, 0⟩
  else a

/-- The f32 floor operation, returning the exact integer (floats that are
floored in this development all lie well inside the exactly-representable
integer range of binary32). -/
def ffloor (a : Dy) : Int := a.n / (2 ^ a.k : Int)

/-- Floor of the base-two logarithm of a positive natural, with fuel. -/
def lg2 (fuel : Nat) (m : Nat) : Nat :=
  match fuel with
  | 0 => 0
  | f + 1 => if 2 ≤ m then lg2 f (m / 2) + 1 else 0

/-- Correctly rounded binary32 quotient of two positive naturals (normal
range), ties to even: models the f32 division performed by the amplitude
computations N as f32 / divisor.  The exponent e with 2 ^ e <= a / b < 2 ^ (e+1)
is found by cross multiplication, the quotient is scaled to 24 significand
bits and rounded to nearest with the remainder deciding the direction. -/
def fdivN (a b : Nat) : Dy :=
  let la : Int := lg2 64 a
  let lb : Int := lg2 64 b
  let c : Int := la - lb
  let e : Int :=
    if b * 2 ^ (max c 0).toNat ≤ a * 2 ^ (max (-c) 0).toNat then c else c - 1
  let sh : Nat := (23 - e).toNat
  let num := a * 2 ^ sh
  let q := num / b
  let r := num % b
  let m : Nat :=
    if 2 * r < b then q
    else if b < 2 * r then q + 1
    else if q % 2 = 0 then q else q + 1
  ⟨m, sh⟩

/-- The f32 operation x.min(1.0) on a nonnegative dyadic. -/
def fminOne (a : Dy) : Dy := if (2 ^ a.k : Int) < a.n then ⟨1, 0⟩ else a

namespace Samp16

/-- Minimum payload of the 16-bit sample type (src/samp.rs line 69). -/
def MIN : Int := -32768

/-- Mid payload of the 16-bit sample type (src/samp.rs line 68). -/
def MID : Int := 0

/-- Maximum payload of the 16-bit sample type (src/samp.rs line 67). -/
def MAX : Int := 32767

/-- The compile-time f32 constant 1.0 / 32767.5 (src/samp.rs line 73),
rounded to binary32; 1 / 32767.5 = 2 / 65535 rounds to 65537 / 2 ^ 31. -/
def MULTIPLIER : Dy := ⟨65537, 31⟩

/-- Samp16::to_f32 (src/samp.rs lines 71-75):
(f32::from(self.0) + 0.5) * MULTIPLIER, every step in f32. -/
def to_f32 (v : Int) : Dy := fmul (fadd ⟨v, 0⟩ ⟨1, 1⟩) MULTIPLIER

/-- From f32 for Samp16 (src/samp.rs lines 86-91):
new((value.clamp(-1.0, 1.0) * 32767.5).floor() as i16).  The cast of the
floored float to i16 saturates (Rust float-to-int casts saturate). -/
def ofF32 (a : Dy) : Int :=
  max (-32768) (min 32767 (ffloor (fmul (fclampOne a) ⟨65535, 1⟩)))

/-- Samp16 addition (src/samp.rs lines 121-128): i16::saturating_add. -/
def add (a b : Int) : Int := max (-32768) (min 32767 (a + b))

/-- Samp16 subtraction (src/samp.rs lines 130-137): i16::saturating_sub. -/
def sub (a b : Int) : Int := max (-32768) (min 32767 (a - b))

/-- Samp16 multiplication (src/samp.rs lines 139-149): the product is taken
in i32, divided by 32767 (Rust division truncates toward zero), then clamped
to the i16 range. -/
def mul (a b : Int) : Int :=
  max (-32768) (min 32767 (Int.tdiv (a * b) 32767))

end Samp16

/-- Wrapping cast of an integer to i16 (two-complement). -/
def wrap16 (z : Int) : Int := (z + 32768) % 65536 - 32768

namespace Samp24

/-- Minimum combined payload of the 24-bit sample type (src/samp.rs 168). -/
def MIN : Int := -8388608

/-- Maximum combined payload of the 24-bit sample type (src/samp.rs 166). -/
def MAX : Int := 8388607

/-- Samp24::new (src/samp.rs lines 177-190): clamp the i32 argument into the
24-bit range, then split it into the high i16 part ((value >> 8) as i16,
where >> is the arithmetic shift, i.e. floor division by 256) and the low u8
part (the wrapping cast value as u8, i.e. the nonnegative residue mod 256). -/
def new (v : Int) : Int × Int :=
  let value := if v < -8388608 then (-8388608 : Int) else if v > 8388607 then 8388607 else v
  (wrap16 (value / 256), value % 256)

/-- Unsigned 32-bit two-complement bit pattern of an integer. -/
def toPat32 (z : Int) : Nat := (z % 4294967296).toNat

/-- Integer denoted by an unsigned 32-bit pattern read as i32. -/
def ofPat32 (m : Nat) : Int :=
  if m < 2147483648 then (m : Int) else (m : Int) - 4294967296

/-- From Samp24 for i32 (src/samp.rs lines 220-225):
((hi as i32) << 8) | (lo as i32), computed on 32-bit two-complement bit
patterns; the shift of an in-range i16 by 8 cannot overflow i32 and equals
multiplication by 256. -/
def fromParts (hi lo : Int) : Int :=
  ofPat32 (toPat32 (hi * 256) ||| toPat32 lo)

/-- Samp24 multiplication (src/samp.rs lines 245-255) on the combined i32
payload: the product is taken in i64, divided by 8388607 (truncating toward
zero), then clamped to the 24-bit range. -/
def mul (a b : Int) : Int :=
  max (-8388608) (min 8388607 (Int.tdiv (a * b) 8388607))

end Samp24

/-- Frame::to_1 for 16-bit samples with identity sample conversion
(src/frame.rs lines 387-400): the mono sample goes to channel 0 and, when
the destination has at least two channels, is duplicated into channel 1;
all remaining channels keep the default value 0. -/
def frameTo1 (s : Int) (n : Nat) : List Int :=
  if n = 1 then [s] else s :: s :: List.replicate (n - 2) 0

/-- The destination-encoding value of the f32 literal 0.5 used by to_2
(S::from(0.5) with S = Samp16). -/
def half16 : Int := Samp16.ofF32 ⟨1, 1⟩

/-- Frame::to_2 with mono destination for 16-bit samples (src/frame.rs lines
402-419, N = 1 branch): left * half + right * half in the destination sample
arithmetic, where half = S::from(0.5). -/
def frameTo2Mono (l r : Int) : Int :=
  Samp16.add (Samp16.mul l half16) (Samp16.mul r half16)

/-- Amplitude factor of Frame::to_4 (src/frame.rs line 473):
(N as f32 / 4.0).min(1.0), the division performed in f32. -/
def to4amplitude (n : Nat) : Dy := fminOne (fdivN n 4)

/-- Amplitude factor of Frame::to_5 (src/frame.rs line 496):
(N as f32 / 5.0).min(1.0). -/
def to5amplitude (n : Nat) : Dy := fminOne (fdivN n 5)

/-- Amplitude factor of Frame::to_6 (src/frame.rs line 522):
(N as f32 / 5.0).min(1.0) - the divisor in the source is 5, not the
6-channel source count. -/
def to6amplitude (n : Nat) : Dy := fminOne (fdivN n 5)

/-- Amplitude factor of Frame::to_7 (src/frame.rs line 557):
(N as f32 / 6.0).min(1.0). -/
def to7amplitude (n : Nat) : Dy := fminOne (fdivN n 6)

/-- Amplitude factor of Frame::to_8 (src/frame.rs line 595):
(N as f32 / 7.0).min(1.0). -/
def to8amplitude (n : Nat) : Dy := fminOne (fdivN n 7)

/-- Count of the non-LFE channels of a source layout with src channels
(layouts with six or more channels devote slot 3 to the LFE channel). -/
def nonLfeCount (src : Nat) : Nat := if 6 ≤ src then src - 1 else src

/-- Claim-side amplitude factor, written from the claim text: the sample is
said to be scaled by min(destinationN / sourceN, 1.0). -/
def claimAmplitude (src n : Nat) : ℚ := min ((n : ℚ) / (src : ℚ)) 1

/-- Final value of destination slot 3 produced by Frame::to_6 with 32-bit
float samples when the destination has at least 5 channels (src/frame.rs
line 533: frame.0[3] = (lfe * amplitude.into()).into()).  This assignment
runs after all the pan calls and overwrites slot 3, so the slot 3 output is
exactly the f32 product of the source LFE sample and the amplitude factor. -/
def to6slot3 (lfe : Dy) (n : Nat) : Dy := fmul lfe (to6amplitude n)

/-- Angle argument of the two-speaker constant-power pan of Frame::pan_2
(src/frame.rs line 104): the angle, already normalized into the unit
interval by rem_euclid(1.0) in Frame::pan (line 45), shifted by a quarter
turn and scaled to radians.  Real-valued model of the f32 computation. -/
noncomputable def pan2theta (x : ℝ) : ℝ := (Int.fract x + 0.25) * Real.pi

/-- Frame::pan_2 (src/frame.rs lines 98-110) over the reals: the sample is
mixed into the left channel with weight cos theta and into the right channel
with weight sin theta; no other channel is touched. -/
noncomputable def pan2 (l r samp x : ℝ) : ℝ × ℝ :=
  (l + samp * Real.cos (pan2theta x), r + samp * Real.sin (pan2theta x))

/-- Audio buffer (src/audio.rs lines 23-28): a sample rate in hertz together
with the frame sequence, for an arbitrary frame type. -/
structure AudioBuf (F : Type) where
  sample_rate : Nat
  frames : List F

/-- Sink trait (src/sink.rs lines 6-26): a sample rate, a remaining length
in frames, and the sink_with operation, over an arbitrary carrier type. -/
structure SinkOps (G : Type) (σ : Type) where
  sample_rate : σ → Nat
  len : σ → Nat
  sink_with : σ → List G → σ

/-- Fields of speex::ResamplerState that src/stream.rs reads and writes.
The speex module itself is not among the sources; its two functions are
taken as parameters below. -/
structure RState where
  samp_frac_num : Nat
  filt_len : Nat
  started : Nat
deriving DecidableEq

/-- Per-channel resampler data (src/stream.rs lines 202-211). -/
structure Chan where
  state : RState
  input : List ℚ
  output : List ℚ
deriving DecidableEq

/-- Stream resampler state (src/stream.rs lines 24-37).  The source holds an
8-element channel array and loops over the first N entries; the model keeps
the channels as a list. -/
structure Stream where
  output_sample_rate : Nat
  input_sample_rate : Option Nat
  ratio : Nat × Nat
  samples : List Chan
  input_latency : Nat
deriving DecidableEq

/-- Result of one speex::ResamplerState::process_float call: the updated
state, the output samples written, and the reported output count. -/
structure PResult where
  state : RState
  output : List ℚ
  produced : Nat

/-- Type of the missing speex process_float function: state, channel input,
output capacity (sink length) and ratio denominator to a result. -/
def ProcessFn : Type := RState → List ℚ → Nat → Nat → PResult

/-- Type of the missing speex update_filter function: state and the reduced
ratio numerator and denominator to an updated state. -/
def UpdateFn : Type := RState → Nat → Nat → RState

/-- gcd of src/stream.rs lines 223-234: an early return for b = 0, then the
Euclidean remainder loop, which computes Nat.gcd. -/
def gcd (a b : Nat) : Nat := if b = 0 then a else Nat.gcd a b

/-- simplify of src/stream.rs lines 213-221: divide both parts by the gcd. -/
def simplify (num den : Nat) : Nat × Nat :=
  let factor := gcd num den
  (num / factor, den / factor)

/-- Modelled from the spec: speex::_muldiv, used by Stream::source_hz to
rescale the fractional phase accumulator proportionally to the ratio change
(spec 4.4: each channel fractional phase accumulator is rescaled
proportionally to the ratio change).  The speex module is missing from the
sources. -/
def muldiv (v num den : Nat) : Nat := v * num / den

/-- started flag of channel 0, read by Stream::pipe and Stream::flush
(src/stream.rs lines 93 and 127). -/
def Stream.startedFlag (st : Stream) : Nat :=
  ((st.samples.head?).map (fun c => c.state.started)).getD 0

/-- Emptiness of channel 0 input, read by Stream::resample_audio
(src/stream.rs line 170). -/
def Stream.firstInputEmpty (st : Stream) : Bool :=
  ((st.samples.head?).map (fun c => c.input.isEmpty)).getD true

/-- Stream::source_hz (src/stream.rs lines 62-85), with the missing speex
update_filter supplied as a parameter: recompute the reduced ratio, and on
an actual rate change rescale each channel phase accumulator, update each
channel filter, and set the input latency to filt_len / 2 of the channel
updated last. -/
def sourceHz (upd : UpdateFn) (st : Stream) (hz : Nat) : Stream :=
  let r := simplify hz st.output_sample_rate
  let den := r.2
  if some hz ≠ st.input_sample_rate then
    let chans := st.samples.map (fun ch =>
      let v := ch.state.samp_frac_num
      let f1 := muldiv v den st.ratio.2
      let f2 := if f1 ≥ den then den - 1 else f1
      let s2 := upd { ch.state with samp_frac_num := f2 } r.1 den
      { ch with state := s2 })
    let lat := (chans.getLast?.map (fun ch => ch.state.filt_len / 2)).getD st.input_latency
    { st with
        samples := chans
        input_latency := lat
        ratio := r
        input_sample_rate := some hz }
  else st

/-- Stream::resample_audio (src/stream.rs lines 164-199), with process_float
supplied as a parameter: skip when channel 0 input is empty; otherwise run
the resampler on the first n channels (the output buffer is sized to the
sink length), take the output count reported by the channel processed last,
re-interleave with reint and deliver to the sink. -/
def resampleAudio {G σ : Type} (P : ProcessFn) (st : Stream) (nch : Nat)
    (ops : SinkOps G σ) (reint : List ℚ → G) (s : σ) : σ × Stream :=
  if st.firstInputEmpty then (s, st)
  else
    let stepped := st.samples.mapIdx (fun i ch =>
      if i < nch then
        let r := P ch.state ch.input (ops.len s) st.ratio.2
        { ch with state := r.state, output := r.output }
      else ch)
    let out := (((st.samples.take nch).getLast?).map
      (fun ch => (P ch.state ch.input (ops.len s) st.ratio.2).produced)).getD 4294967295
    let frames := (List.range out).map (fun i =>
      reint ((stepped.take nch).map (fun ch => ch.output.getD i 0)))
    (ops.sink_with s frames, { st with samples := stepped })

/-- Input backlogs as Stream::flush leaves them before its final resample
step (src/stream.rs lines 97-105): each of the first n channels is cleared
and then receives input_latency zero samples. -/
def flushInputs (st : Stream) (nch : Nat) : Stream :=
  { st with samples := st.samples.mapIdx (fun i ch =>
      if i < nch then { ch with input := List.replicate st.input_latency 0 } else ch) }

/-- Stream::flush (src/stream.rs lines 87-109): a stream that never started
resampling returns without output; otherwise the input backlogs are replaced
by input_latency zeros per channel and exactly one resample step runs. -/
def flush {G σ : Type} (P : ProcessFn) (st : Stream) (nch : Nat)
    (ops : SinkOps G σ) (reint : List ℚ → G) (s : σ) : σ :=
  if st.startedFlag = 0 then s
  else (resampleAudio P (flushInputs st nch) nch ops reint s).1

/-- Stream::pipe (src/stream.rs lines 116-162).  The panicking assert on the
sink rate is modelled by none; the fast path copies the format-converted
frames straight to the sink; the slow path switches the source rate when
needed, de-interleaves the input (deint gives the f32 channel values of one
converted frame) into the channel backlogs and resamples.  The missing
speex functions are parameters. -/
def pipe {F G σ : Type} (P : ProcessFn) (upd : UpdateFn) (st : Stream) (nch : Nat)
    (audio : AudioBuf F) (ops : SinkOps G σ) (conv : F → G) (deint : F → List ℚ)
    (reint : List ℚ → G) (s : σ) : Option (σ × Stream) :=
  if ops.sample_rate s ≠ st.output_sample_rate then none
  else if st.startedFlag = 0 ∧ ops.sample_rate s = audio.sample_rate then
    some (ops.sink_with s (audio.frames.map conv), st)
  else
    let st1 := if some audio.sample_rate ≠ st.input_sample_rate
      then sourceHz upd st audio.sample_rate else st
    let st2 := { st1 with samples := st1.samples.mapIdx (fun i ch =>
      if i < nch then { ch with input := audio.frames.map (fun fr => (deint fr).getD i 0) } else ch) }
    some (resampleAudio P st2 nch ops reint s)

/-- Specification-side definition, written from the spec wording: a direct
copy of the input delivers every frame, format-converted, straight to the
sink in order. -/
def directCopy {F G σ : Type} (ops : SinkOps G σ) (audio : AudioBuf F)
    (conv : F → G) (s : σ) : σ :=
  ops.sink_with s (audio.frames.map conv)

end Fon

namespace Fon

/-- Value of a dyadic built from explicit components. -/
theorem val_mk (n : Int) (k : Nat) : Dy.val ⟨n, k⟩ = (n : ℚ) / 2 ^ k := rfl

/-- excessBits is zero on naturals below 2 ^ 24. -/
theorem excessBits_eq_zero (fuel m : Nat) (h : m < 2 ^ 24) :
    excessBits fuel m = 0 := by
  cases fuel with
  | zero => rfl
  | succ f =>
    simp only [excessBits]
    rw [if_pos (by omega)]

/-- excessBits brackets its argument between consecutive powers of two. -/
theorem excessBits_spec : ∀ fuel m : Nat, 2 ^ 24 ≤ m → m < 2 ^ (24 + fuel) →
    2 ^ (23 + excessBits fuel m) ≤ m ∧ m < 2 ^ (24 + excessBits fuel m) := by
  intro fuel
  induction fuel with
  | zero =>
    intro m hge hlt
    simp only [Nat.add_zero] at hlt
    omega
  | succ f ih =>
    intro m hge hlt
    rw [show excessBits (f + 1) m
        = if m < 2 ^ 24 then 0 else excessBits f (m / 2) + 1 from rfl,
      if_neg (by omega)]
    have hp : (2 : ℕ) ^ (24 + (f + 1)) = 2 * 2 ^ (24 + f) := by ring
    by_cases hsm : m / 2 < 2 ^ 24
    · rw [excessBits_eq_zero f (m / 2) hsm]
      norm_num
      omega
    · have hrec := ih (m / 2) (by omega) (by omega)
      obtain ⟨hl, hr⟩ := hrec
      set E := excessBits f (m / 2) with hE
      have e1 : (2 : ℕ) ^ (23 + (E + 1)) = 2 * 2 ^ (23 + E) := by ring
      have e2 : (2 : ℕ) ^ (24 + (E + 1)) = 2 * 2 ^ (24 + E) := by ring
      rw [e1, e2]
      set A := (2 : ℕ) ^ (23 + E) with hA
      set B := (2 : ℕ) ^ (24 + E) with hB
      have hBA : B = 2 * A := by rw [hA, hB]; ring
      omega

/-- Bound on excessBits from a bound on its argument. -/
theorem excessBits_le (m j : Nat) (hj : j ≤ 64) (h : m < 2 ^ (24 + j)) :
    excessBits 64 m ≤ j := by
  by_cases hm : m < 2 ^ 24
  · rw [excessBits_eq_zero 64 m hm]; omega
  · have hspec := excessBits_spec 64 m (by omega)
      (lt_of_lt_of_le h (Nat.pow_le_pow_right (by norm_num) (by omega)))
    obtain ⟨hl, _⟩ := hspec
    by_contra hc
    have : 2 ^ (24 + j) ≤ 2 ^ (23 + excessBits 64 m) :=
      Nat.pow_le_pow_right (by norm_num) (by omega)
    omega

/-- Rounding to nearest moves the value by at most half of the step. -/
theorem rneNat_bounds (m s : Nat) (hs : 1 ≤ s) :
    (m : Int) - 2 ^ (s - 1) ≤ (rneNat m s : Int) * 2 ^ s ∧
    (rneNat m s : Int) * 2 ^ s ≤ (m : Int) + 2 ^ (s - 1) := by
  unfold rneNat
  have hdm := Nat.div_add_mod m (2 ^ s)
  have hmlt : m % 2 ^ s < 2 ^ s := Nat.mod_lt _ (by positivity)
  have hps : (2 : ℕ) ^ s = 2 * 2 ^ (s - 1) := by
    conv_lhs => rw [show s = (s - 1) + 1 by omega]
    ring
  have hqz : ((m / 2 ^ s : ℕ) : Int) * 2 ^ s = (m : Int) - (m % 2 ^ s : ℕ) := by
    have h := congrArg (Nat.cast : ℕ → ℤ) hdm
    rw [Nat.cast_add, Nat.cast_mul, Nat.cast_pow, Nat.cast_ofNat] at h
    linarith
  have hpz : ((2 : Int) ^ s) = 2 * 2 ^ (s - 1) := by exact_mod_cast hps
  have hrz : (((m % 2 ^ s : ℕ)) : Int) < 2 ^ s := by exact_mod_cast hmlt
  have hr0 : (0 : Int) ≤ ((m % 2 ^ s : ℕ) : Int) := by positivity
  have hexp : ((m / 2 ^ s + 1 : ℕ) : Int) * 2 ^ s =
      ((m / 2 ^ s : ℕ) : Int) * 2 ^ s + 2 ^ s := by
    push_cast; ring
  split_ifs with h1 h2 h3
  · have h1z : (((m % 2 ^ s : ℕ)) : Int) < 2 ^ (s - 1) := by exact_mod_cast h1
    constructor <;> linarith
  · have h2z : (2 : Int) ^ (s - 1) < ((m % 2 ^ s : ℕ) : Int) := by exact_mod_cast h2
    rw [hexp]
    constructor <;> linarith
  · have hteq : (((m % 2 ^ s : ℕ)) : Int) = 2 ^ (s - 1) := by
      have h1z : ¬ ((m % 2 ^ s : ℕ) : Int) < 2 ^ (s - 1) := by exact_mod_cast h1
      have h2z : ¬ (2 : Int) ^ (s - 1) < ((m % 2 ^ s : ℕ) : Int) := by exact_mod_cast h2
      omega
    constructor <;> linarith
  · have hteq : (((m % 2 ^ s : ℕ)) : Int) = 2 ^ (s - 1) := by
      have h1z : ¬ ((m % 2 ^ s : ℕ) : Int) < 2 ^ (s - 1) := by exact_mod_cast h1
      have h2z : ¬ (2 : Int) ^ (s - 1) < ((m % 2 ^ s : ℕ) : Int) := by exact_mod_cast h2
      omega
    rw [hexp]
    constructor <;> linarith

/-- Rounding a dyadic that already fits in 24 bits is the identity. -/
theorem rnd32_exact (a : Dy) (h : a.n.natAbs < 2 ^ 24) : rnd32 a = a := by
  unfold rnd32
  rw [if_pos (excessBits_eq_zero 64 _ h)]

/-- Denominator exponent of a rounded dyadic. -/
theorem rnd32_k_eq (a : Dy) :
    (rnd32 a).k = a.k - excessBits 64 a.n.natAbs := by
  unfold rnd32
  split_ifs with h h2
  · omega
  · rfl
  · rfl


/-- Absolute value of a dyadic value. -/
theorem val_abs (a : Dy) : |a.val| = (a.n.natAbs : ℚ) / 2 ^ a.k := by
  unfold Dy.val
  rw [abs_div, abs_of_pos (by positivity : (0 : ℚ) < 2 ^ a.k)]
  congr 1
  rw [Int.cast_natAbs]
  exact Int.cast_abs.symm

/-- Core relative error bound of the rounding, for the significand. -/
theorem rnd32_err_core (m k s : Nat) (hs : 1 ≤ s) (hsk : s ≤ k)
    (hlow : 2 ^ (23 + s) ≤ m) :
    |((rneNat m s : ℚ)) / 2 ^ (k - s) - (m : ℚ) / 2 ^ k| ≤
      ((m : ℚ) / 2 ^ k) / 2 ^ 24 := by
  have hposk : (0 : ℚ) < 2 ^ k := by positivity
  have hposs : (0 : ℚ) < 2 ^ s := by positivity
  have hk2 : (2 : ℚ) ^ k = 2 ^ (k - s) * 2 ^ s := by
    rw [← pow_add]
    congr 1
    omega
  have e1 : ((rneNat m s : ℚ)) / 2 ^ (k - s)
      = ((rneNat m s : ℚ) * 2 ^ s) / 2 ^ k := by
    rw [hk2]
    exact (mul_div_mul_right _ _ hposs.ne').symm
  rw [e1, div_sub_div_same, abs_div, abs_of_pos hposk, div_div,
    mul_comm ((2 : ℚ) ^ k) ((2 : ℚ) ^ 24), ← div_div]
  rw [div_le_div_iff_of_pos_right hposk]
  have hb := rneNat_bounds m s hs
  have b1 : (m : ℚ) - 2 ^ (s - 1) ≤ (rneNat m s : ℚ) * 2 ^ s := by
    exact_mod_cast hb.1
  have b2 : (rneNat m s : ℚ) * 2 ^ s ≤ (m : ℚ) + 2 ^ (s - 1) := by
    exact_mod_cast hb.2
  have habs : |(rneNat m s : ℚ) * 2 ^ s - (m : ℚ)| ≤ 2 ^ (s - 1) :=
    abs_le.mpr ⟨by linarith, by linarith⟩
  have hstep : ((2 : ℚ) ^ (s - 1)) ≤ (m : ℚ) / 2 ^ 24 := by
    rw [le_div_iff₀ (by positivity : (0 : ℚ) < 2 ^ 24)]
    have : (2 : ℚ) ^ (s - 1) * 2 ^ 24 = 2 ^ (23 + s) := by
      rw [← pow_add]
      congr 1
      omega
    rw [this]
    exact_mod_cast hlow
  linarith

/-- Relative error of binary32 rounding: at most one part in 2 ^ 24. -/
theorem rnd32_val_err (a : Dy) (hfuel : a.n.natAbs < 2 ^ 88)
    (hks : excessBits 64 a.n.natAbs ≤ a.k) :
    |(rnd32 a).val - a.val| ≤ |a.val| / 2 ^ 24 := by
  by_cases h0 : excessBits 64 a.n.natAbs = 0
  · unfold rnd32
    rw [if_pos h0]
    simp only [sub_self, abs_zero]
    positivity
  · have hs : 1 ≤ excessBits 64 a.n.natAbs := by omega
    have hm24 : 2 ^ 24 ≤ a.n.natAbs := by
      by_contra hc
      exact h0 (excessBits_eq_zero 64 _ (by omega))
    have hspec := excessBits_spec 64 a.n.natAbs hm24 (by
      calc a.n.natAbs < 2 ^ 88 := hfuel
        _ = 2 ^ (24 + 64) := by norm_num)
    rw [val_abs]
    unfold rnd32
    rw [if_neg h0]
    rcases lt_or_le a.n 0 with hneg | hpos
    · rw [if_pos hneg, val_mk]
      have hn : (a.n : ℚ) = -((a.n.natAbs : ℚ)) := by
        rw [Int.cast_natAbs, abs_of_neg hneg]
        push_cast
        ring
      unfold Dy.val
      rw [hn]
      push_cast
      have heq : -((rneNat a.n.natAbs (excessBits 64 a.n.natAbs) : ℚ))
            / 2 ^ (a.k - excessBits 64 a.n.natAbs)
            - -((a.n.natAbs : ℚ)) / 2 ^ a.k
          = -(((rneNat a.n.natAbs (excessBits 64 a.n.natAbs) : ℚ))
            / 2 ^ (a.k - excessBits 64 a.n.natAbs)
            - ((a.n.natAbs : ℚ)) / 2 ^ a.k) := by
        ring
      rw [heq, abs_neg]
      exact rnd32_err_core a.n.natAbs a.k _ hs hks hspec.1
    · rw [if_neg (not_lt.mpr hpos), val_mk]
      have hn : (a.n : ℚ) = ((a.n.natAbs : ℚ)) := by
        rw [Int.cast_natAbs, abs_of_nonneg hpos]
      unfold Dy.val
      rw [hn]
      push_cast
      exact rnd32_err_core a.n.natAbs a.k _ hs hks hspec.1

/-- Rounding does not push a value of magnitude at most one above one. -/
theorem rnd32_abs_le_one (a : Dy)
    (hks : excessBits 64 a.n.natAbs ≤ a.k) (hle : |a.val| ≤ 1) :
    |(rnd32 a).val| ≤ 1 := by
  by_cases h0 : excessBits 64 a.n.natAbs = 0
  · unfold rnd32
    rw [if_pos h0]
    exact hle
  · have hs : 1 ≤ excessBits 64 a.n.natAbs := by omega
    have hmk : a.n.natAbs ≤ 2 ^ a.k := by
      have h1 : (a.n.natAbs : ℚ) / 2 ^ a.k ≤ 1 := by
        rw [← val_abs]; exact hle
      have h2 := (div_le_one (by positivity : (0 : ℚ) < 2 ^ a.k)).mp h1
      exact_mod_cast h2
    have hb := rneNat_bounds a.n.natAbs (excessBits 64 a.n.natAbs) hs
    have hup : rneNat a.n.natAbs (excessBits 64 a.n.natAbs)
        * 2 ^ excessBits 64 a.n.natAbs
        ≤ a.n.natAbs + 2 ^ (excessBits 64 a.n.natAbs - 1) := by
      exact_mod_cast hb.2
    have hlt : rneNat a.n.natAbs (excessBits 64 a.n.natAbs)
        * 2 ^ excessBits 64 a.n.natAbs
        < (2 ^ (a.k - excessBits 64 a.n.natAbs) + 1)
          * 2 ^ excessBits 64 a.n.natAbs := by
      have hsplit : (2 : ℕ) ^ a.k
          = 2 ^ (a.k - excessBits 64 a.n.natAbs) * 2 ^ excessBits 64 a.n.natAbs := by
        rw [← pow_add]
        congr 1
        omega
      have hhalf : (2 : ℕ) ^ (excessBits 64 a.n.natAbs - 1)
          < 2 ^ excessBits 64 a.n.natAbs :=
        Nat.pow_lt_pow_right (by norm_num) (by omega)
      calc rneNat a.n.natAbs (excessBits 64 a.n.natAbs)
            * 2 ^ excessBits 64 a.n.natAbs
          ≤ a.n.natAbs + 2 ^ (excessBits 64 a.n.natAbs - 1) := hup
        _ < 2 ^ a.k + 2 ^ excessBits 64 a.n.natAbs := by omega
        _ = (2 ^ (a.k - excessBits 64 a.n.natAbs) + 1)
            * 2 ^ excessBits 64 a.n.natAbs := by rw [add_mul, one_mul, ← hsplit]
    have hrne : rneNat a.n.natAbs (excessBits 64 a.n.natAbs)
        ≤ 2 ^ (a.k - excessBits 64 a.n.natAbs) :=
      Nat.lt_succ_iff.mp (Nat.lt_of_mul_lt_mul_right hlt)
    unfold rnd32
    rw [if_neg h0]
    have hvm : |Dy.val ⟨if a.n < 0
          then -(rneNat a.n.natAbs (excessBits 64 a.n.natAbs) : Int)
          else (rneNat a.n.natAbs (excessBits 64 a.n.natAbs) : Int),
          a.k - excessBits 64 a.n.natAbs⟩|
        = (rneNat a.n.natAbs (excessBits 64 a.n.natAbs) : ℚ)
          / 2 ^ (a.k - excessBits 64 a.n.natAbs) := by
      rw [val_abs]
      congr 1
      split_ifs <;> simp
    rw [hvm, div_le_one (by positivity)]
    exact_mod_cast hrne

/-- Significand bound of a rounded dyadic. -/
theorem rnd32_natAbs_le (a : Dy) (hfuel : a.n.natAbs < 2 ^ 88) :
    (rnd32 a).n.natAbs ≤ 2 ^ 24 := by
  by_cases h0 : excessBits 64 a.n.natAbs = 0
  · have hm : a.n.natAbs < 2 ^ 24 := by
      by_contra hc
      have hspec := excessBits_spec 64 a.n.natAbs (by omega) (by
        calc a.n.natAbs < 2 ^ 88 := hfuel
          _ = 2 ^ (24 + 64) := by norm_num)
      rw [h0] at hspec
      simp only [Nat.add_zero] at hspec
      omega
    unfold rnd32
    rw [if_pos h0]
    omega
  · have hs : 1 ≤ excessBits 64 a.n.natAbs := by omega
    have hm24 : 2 ^ 24 ≤ a.n.natAbs := by
      by_contra hc
      exact h0 (excessBits_eq_zero 64 _ (by omega))
    have hspec := excessBits_spec 64 a.n.natAbs hm24 (by
      calc a.n.natAbs < 2 ^ 88 := hfuel
        _ = 2 ^ (24 + 64) := by norm_num)
    have hb := rneNat_bounds a.n.natAbs (excessBits 64 a.n.natAbs) hs
    have hup : rneNat a.n.natAbs (excessBits 64 a.n.natAbs)
        * 2 ^ excessBits 64 a.n.natAbs
        ≤ a.n.natAbs + 2 ^ (excessBits 64 a.n.natAbs - 1) := by
      exact_mod_cast hb.2
    have hlt : rneNat a.n.natAbs (excessBits 64 a.n.natAbs)
        * 2 ^ excessBits 64 a.n.natAbs
        < (2 ^ 24 + 1) * 2 ^ excessBits 64 a.n.natAbs := by
      have hupbd : a.n.natAbs < 2 ^ (24 + excessBits 64 a.n.natAbs) := hspec.2
      have hsplit : (2 : ℕ) ^ (24 + excessBits 64 a.n.natAbs)
          = 2 ^ 24 * 2 ^ excessBits 64 a.n.natAbs := by
        rw [← pow_add]
      have hhalf : (2 : ℕ) ^ (excessBits 64 a.n.natAbs - 1)
          < 2 ^ excessBits 64 a.n.natAbs :=
        Nat.pow_lt_pow_right (by norm_num) (by omega)
      calc rneNat a.n.natAbs (excessBits 64 a.n.natAbs)
            * 2 ^ excessBits 64 a.n.natAbs
          ≤ a.n.natAbs + 2 ^ (excessBits 64 a.n.natAbs - 1) := hup
        _ < 2 ^ 24 * 2 ^ excessBits 64 a.n.natAbs
            + 2 ^ excessBits 64 a.n.natAbs := by omega
        _ = (2 ^ 24 + 1) * 2 ^ excessBits 64 a.n.natAbs := by ring
    have hrne : rneNat a.n.natAbs (excessBits 64 a.n.natAbs) ≤ 2 ^ 24 :=
      Nat.lt_succ_iff.mp (Nat.lt_of_mul_lt_mul_right hlt)
    unfold rnd32
    rw [if_neg h0]
    have : (if a.n < 0
        then -(rneNat a.n.natAbs (excessBits 64 a.n.natAbs) : Int)
        else (rneNat a.n.natAbs (excessBits 64 a.n.natAbs) : Int)).natAbs
        = rneNat a.n.natAbs (excessBits 64 a.n.natAbs) := by
      split_ifs <;> simp
    simpa [this] using hrne

/-- Clamping to the unit interval fixes values already inside it. -/
theorem fclampOne_id (a : Dy) (h : |a.val| ≤ 1) : fclampOne a = a := by
  have h1 : (a.n.natAbs : ℚ) / 2 ^ a.k ≤ 1 := by
    rw [← val_abs]; exact h
  have hint : a.n.natAbs ≤ 2 ^ a.k :=
    by exact_mod_cast (div_le_one (by positivity : (0 : ℚ) < 2 ^ a.k)).mp h1
  unfold fclampOne
  have hcast : ((2 : ℤ) ^ a.k) = ((2 ^ a.k : ℕ) : ℤ) := by push_cast; ring
  rw [hcast, if_neg (by omega), if_neg (by omega)]

/-- ffloor computes the mathematical floor of the dyadic value. -/
theorem ffloor_eq_floor (a : Dy) : ffloor a = ⌊a.val⌋ := by
  unfold ffloor Dy.val
  rw [show ((2 : ℚ) ^ a.k) = ((2 ^ a.k : ℕ) : ℚ) by push_cast; ring,
    Rat.floor_intCast_div_natCast]
  congr 1
  push_cast
  ring


/-- C1: for every i16 value v, converting Samp16::new(v) to f32 via to_f32
and back via the From f32 conversion yields Samp16::new(v) again; the
round trip is the identity on the whole 16-bit payload range, in particular
at MIN, MID and MAX. -/
theorem C1_samp16_float_roundtrip (v : Int) (h1 : -32768 ≤ v) (h2 : v ≤ 32767) :
    Samp16.ofF32 (Samp16.to_f32 v) = v := by
  have hA : fadd ⟨v, 0⟩ ⟨1, 1⟩ = ⟨v * 2 + 1, 1⟩ := by
    have e : fadd ⟨v, 0⟩ ⟨1, 1⟩ = rnd32 ⟨v * 2 + 1, 1⟩ := by
      unfold fadd
      norm_num
    rw [e]
    exact rnd32_exact _ (show (v * 2 + 1).natAbs < 2 ^ 24 by omega)
  set X := rnd32 ⟨(v * 2 + 1) * 65537, 32⟩ with hXdef
  have hto : Samp16.to_f32 v = X := by
    unfold Samp16.to_f32 Samp16.MULTIPLIER
    rw [hA]
    rfl
  have htfuel : ((v * 2 + 1) * 65537).natAbs < 2 ^ 88 := by omega
  have hts : excessBits 64 ((v * 2 + 1) * 65537).natAbs ≤ 8 :=
    excessBits_le _ 8 (by norm_num) (by omega)
  have hvq1 : (-32768 : ℚ) ≤ (v : ℚ) := by exact_mod_cast h1
  have hvq2 : (v : ℚ) ≤ 32767 := by exact_mod_cast h2
  set Pv : ℚ := Dy.val ⟨(v * 2 + 1) * 65537, 32⟩ with hPdef
  have hPval : Pv = (((v : ℚ) * 2 + 1) * 65537) / 2 ^ 32 := by
    rw [hPdef, val_mk]
    push_cast
    ring
  have hPle : |Pv| ≤ 1 := by
    rw [hPval, abs_le]
    constructor
    · rw [le_div_iff₀ (by positivity : (0 : ℚ) < 2 ^ 32)]
      nlinarith
    · rw [div_le_iff₀ (by positivity : (0 : ℚ) < 2 ^ 32)]
      nlinarith
  have herr1 : |X.val - Pv| ≤ 1 / 2 ^ 24 := by
    have h := rnd32_val_err ⟨(v * 2 + 1) * 65537, 32⟩ htfuel
      (le_trans hts (by norm_num))
    rw [hXdef]
    calc |(rnd32 ⟨(v * 2 + 1) * 65537, 32⟩).val - Pv| ≤ |Pv| / 2 ^ 24 := h
      _ ≤ 1 / 2 ^ 24 := (div_le_div_iff_of_pos_right (by positivity)).mpr hPle
  have hxle : |X.val| ≤ 1 := by
    rw [hXdef]
    exact rnd32_abs_le_one _ (le_trans hts (by norm_num)) hPle
  have hXn : X.n.natAbs ≤ 2 ^ 24 := by
    rw [hXdef]
    exact rnd32_natAbs_le _ htfuel
  have hXk : 24 ≤ X.k := by
    rw [hXdef, rnd32_k_eq]
    show 24 ≤ 32 - excessBits 64 ((v * 2 + 1) * 65537).natAbs
    omega
  have hyfuel : (X.n * 65535).natAbs < 2 ^ 88 := by omega
  have hyks : excessBits 64 (X.n * 65535).natAbs ≤ X.k + 1 := by
    have h17 : excessBits 64 (X.n * 65535).natAbs ≤ 17 :=
      excessBits_le _ 17 (by norm_num) (by omega)
    omega
  set Y := rnd32 ⟨X.n * 65535, X.k + 1⟩ with hYdef
  have harg : Dy.val ⟨X.n * 65535, X.k + 1⟩ = X.val * (65535 / 2) := by
    unfold Dy.val
    rw [pow_succ]
    push_cast
    field_simp
    try ring
  have herr2 : |Y.val - X.val * (65535 / 2)| ≤ (65535 / 2) / 2 ^ 24 := by
    have h := rnd32_val_err ⟨X.n * 65535, X.k + 1⟩ hyfuel hyks
    rw [harg] at h
    have habs : |X.val * (65535 / 2 : ℚ)| ≤ 65535 / 2 := by
      rw [abs_mul, abs_of_pos (by norm_num : (0 : ℚ) < 65535 / 2)]
      nlinarith [abs_nonneg X.val]
    rw [hYdef]
    calc |(rnd32 ⟨X.n * 65535, X.k + 1⟩).val - X.val * (65535 / 2)|
        ≤ |X.val * (65535 / 2)| / 2 ^ 24 := h
      _ ≤ (65535 / 2) / 2 ^ 24 :=
          (div_le_div_iff_of_pos_right (by positivity)).mpr habs
  have he3 : Pv * (65535 / 2) = (v : ℚ) + 1 / 2 - ((v : ℚ) * 2 + 1) / 2 ^ 33 := by
    rw [hPval]
    ring
  have hx := abs_le.mp herr1
  have hy := abs_le.mp herr2
  have hfl : ⌊Y.val⌋ = v := by
    rw [Int.floor_eq_iff]
    constructor
    · linarith [hx.1, hx.2, hy.1, hy.2, he3, hvq1, hvq2]
    · linarith [hx.1, hx.2, hy.1, hy.2, he3, hvq1, hvq2]
  rw [hto]
  unfold Samp16.ofF32
  rw [fclampOne_id X hxle, show fmul X ⟨65535, 1⟩ = Y from rfl,
    ffloor_eq_floor, hfl, min_eq_right h2, max_eq_right h1]


/-- Witness for C1: the round trip evaluated at the MAX payload 32767. -/
theorem C1_samp16_float_roundtrip_witness :
    (-32768 : Int) ≤ 32767 ∧ (32767 : Int) ≤ 32767 ∧
    Samp16.ofF32 (Samp16.to_f32 32767) = 32767 :=
  ⟨by decide, by decide,
    C1_samp16_float_roundtrip 32767 (by decide) (by decide)⟩

/-- Disjoint bitwise or: a multiple of 256 or-ed with a byte is their sum. -/
theorem lor_byte_disjoint (a b : Nat) (ha : a % 256 = 0) (hb : b < 256) :
    a ||| b = a + b := by
  have hb8 : b < 2 ^ 8 := by omega
  have h08 : (0 : ℕ) < 2 ^ 8 := by norm_num
  apply Nat.eq_of_testBit_eq
  intro i
  rw [Nat.testBit_lor]
  by_cases hi : i < 8
  · rw [show a + b = 2 ^ 8 * (a / 256) + b by omega,
      Nat.testBit_mul_pow_two_add _ hb8 i, if_pos hi]
    conv_lhs => rw [show a = 2 ^ 8 * (a / 256) + 0 by omega,
      Nat.testBit_mul_pow_two_add _ h08 i]
    rw [if_pos hi]
    simp
  · rw [show a + b = 2 ^ 8 * (a / 256) + b by omega,
      Nat.testBit_mul_pow_two_add _ hb8 i, if_neg hi]
    conv_lhs => rw [show a = 2 ^ 8 * (a / 256) + 0 by omega,
      Nat.testBit_mul_pow_two_add _ h08 i]
    rw [if_neg hi]
    have hbf : b.testBit i = false :=
      Nat.testBit_lt_two_pow
        (lt_of_lt_of_le hb8 (Nat.pow_le_pow_right (by norm_num) (by omega)))
    simp [hbf]

/-- Recombination of an in-range high i16 part and a low byte. -/
theorem fromParts_eq (hi lo : Int) (h1 : -32768 ≤ hi) (h2 : hi ≤ 32767)
    (h3 : 0 ≤ lo) (h4 : lo < 256) :
    Samp24.fromParts hi lo = hi * 256 + lo := by
  unfold Samp24.fromParts Samp24.toPat32 Samp24.ofPat32
  have hlo : ((lo % 4294967296).toNat) = lo.toNat := by omega
  rw [hlo]
  have hA256 : ((hi * 256) % 4294967296).toNat % 256 = 0 := by omega
  have hltn : lo.toNat < 256 := by omega
  rw [lor_byte_disjoint _ _ hA256 hltn]
  split_ifs with hcase <;> omega

/-- Samp24::new written with the clamp as a max and a min. -/
theorem samp24_new_eq (v : Int) :
    Samp24.new v = (wrap16 (max (-8388608) (min 8388607 v) / 256),
      max (-8388608) (min 8388607 v) % 256) := by
  unfold Samp24.new
  have hcl : (if v < -8388608 then (-8388608 : Int)
      else if v > 8388607 then 8388607 else v)
      = max (-8388608) (min 8388607 v) := by
    split_ifs <;> omega
  rw [hcl]

/-- C10: Samp24::new clamps its i32 argument into the 24-bit range before
splitting it into a high i16 and a low byte, and recombining through the
From Samp24 for i32 conversion returns exactly the clamped value, negative
values included. -/
theorem C10_samp24_roundtrip (v : Int)
    (h1 : -2147483648 ≤ v) (h2 : v < 2147483648) :
    Samp24.fromParts (Samp24.new v).1 (Samp24.new v).2 =
      max (-8388608) (min 8388607 v) := by
  rw [samp24_new_eq]
  have hwr : wrap16 (max (-8388608) (min 8388607 v) / 256)
      = max (-8388608) (min 8388607 v) / 256 := by
    unfold wrap16
    omega
  rw [hwr]
  rw [fromParts_eq _ _ (by omega) (by omega) (by omega) (by omega)]
  omega

/-- Witness for C10: the round trip evaluated at -1 (all-ones pattern). -/
theorem C10_samp24_roundtrip_witness :
    (-2147483648 : Int) ≤ -1 ∧ (-1 : Int) < 2147483648 ∧
    Samp24.fromParts (Samp24.new (-1)).1 (Samp24.new (-1)).2 =
      max (-8388608) (min 8388607 (-1)) :=
  ⟨by decide, by decide, C10_samp24_roundtrip (-1) (by decide) (by decide)⟩


/-- Multiplying a 16-bit sample by the encoded one half (16383) lands within
one and a half steps of the exact half, and well inside the i16 range. -/
theorem mulHalf_bounds (a : Int) (h1 : -32768 ≤ a) (h2 : a ≤ 32767) :
    a - 3 < 2 * Samp16.mul a 16383 ∧ 2 * Samp16.mul a 16383 < a + 3 ∧
    -16384 ≤ Samp16.mul a 16383 ∧ Samp16.mul a 16383 ≤ 16383 := by
  unfold Samp16.mul
  rcases le_or_lt 0 a with ha | ha
  · rw [Int.tdiv_eq_ediv (by positivity) (by norm_num)]
    omega
  · rw [show a * 16383 = -(-a * 16383) by ring, Int.neg_tdiv,
      Int.tdiv_eq_ediv (by nlinarith) (by norm_num)]
    omega

/-- Counterexample to C3 as stated: for the 16-bit encoding, converting the
stereo frame (MAX, MAX) to mono yields 32766, not the exact average
(MAX + MAX) / 2 = 32767. -/
theorem C3_counterexample :
    frameTo2Mono Samp16.MAX Samp16.MAX = 32766 ∧
    (Samp16.MAX + Samp16.MAX) / 2 = Samp16.MAX ∧
    frameTo2Mono Samp16.MAX Samp16.MAX ≠ (Samp16.MAX + Samp16.MAX) / 2 := by
  refine ⟨by decide, by decide, by decide⟩

/-- C3 amended: Frame::to duplicates a mono source sample exactly into
destination channels 0 and 1 whenever the destination has at least two
channels; converting stereo (L, R) to mono computes L * h + R * h with h the
destination encoding of one half (16383 for 16 bits), which stays within
three least significant steps of the exact average but need not equal it. -/
theorem C3_amended :
    (∀ (s : Int) (n : Nat), 2 ≤ n →
      (frameTo1 s n).getD 0 0 = s ∧ (frameTo1 s n).getD 1 0 = s) ∧
    (∀ l r : Int, -32768 ≤ l → l ≤ 32767 → -32768 ≤ r → r ≤ 32767 →
      l + r - 6 < 2 * frameTo2Mono l r ∧ 2 * frameTo2Mono l r < l + r + 6) := by
  constructor
  · intro s n hn
    unfold frameTo1
    rw [if_neg (by omega)]
    exact ⟨rfl, rfl⟩
  · intro l r hl1 hl2 hr1 hr2
    have hhalf : half16 = 16383 := by decide
    unfold frameTo2Mono
    rw [hhalf]
    have Hl := mulHalf_bounds l hl1 hl2
    have Hr := mulHalf_bounds r hr1 hr2
    unfold Samp16.add
    omega

/-- Witness for C3 amended: mono duplication at sample 7 into two channels,
and the stereo average bound at full scale. -/
theorem C3_amended_witness :
    ((frameTo1 7 2).getD 0 0 = 7 ∧ (frameTo1 7 2).getD 1 0 = 7) ∧
    (32767 + 32767 - 6 < 2 * frameTo2Mono 32767 32767 ∧
      2 * frameTo2Mono 32767 32767 < 32767 + 32767 + 6) :=
  ⟨C3_amended.1 7 2 (by decide),
    C3_amended.2 32767 32767 (by decide) (by decide) (by decide) (by decide)⟩

/-- Counterexample to C4 as stated: the 6-channel source with a 5-channel
destination uses the amplitude factor (5 / 5).min(1) = 1, not
min(5 / 6, 1) = 5 / 6 as the claim prescribes; correspondingly the LFE
sample 1.0 arrives in destination slot 3 unattenuated. -/
theorem C4_counterexample :
    to6amplitude 5 = ⟨8388608, 23⟩ ∧ (to6amplitude 5).val = 1 ∧
    claimAmplitude 6 5 = 5 / 6 ∧ (to6amplitude 5).val ≠ claimAmplitude 6 5 ∧
    (to6slot3 ⟨1, 0⟩ 5).val = 1 := by
  have h1 : to6amplitude 5 = ⟨8388608, 23⟩ := by decide
  have h2 : to6slot3 ⟨1, 0⟩ 5 = ⟨8388608, 23⟩ := by decide
  have hv : Dy.val ⟨8388608, 23⟩ = 1 := by
    rw [val_mk]
    norm_num
  have hc : claimAmplitude 6 5 = 5 / 6 := by
    unfold claimAmplitude
    norm_num
  refine ⟨h1, by rw [h1, hv], hc, ?_, by rw [h2, hv]⟩
  rw [h1, hv, hc]
  norm_num

/-- C4 amended: for source layouts with 4 to 8 channels the per-sample
amplitude factor of Frame::to is min(N / M, 1.0) computed in f32, where M is
the count of the non-LFE source channels: M equals the source count for the
4- and 5-channel layouts and the source count minus one for the 6-, 7- and
8-channel layouts (slot 3 is the LFE).  The 3-channel source uses a fixed
mixing matrix instead of this factor. -/
theorem C4_amended : ∀ n : Nat,
    to4amplitude n = fminOne (fdivN n (nonLfeCount 4)) ∧
    to5amplitude n = fminOne (fdivN n (nonLfeCount 5)) ∧
    to6amplitude n = fminOne (fdivN n (nonLfeCount 6)) ∧
    to7amplitude n = fminOne (fdivN n (nonLfeCount 7)) ∧
    to8amplitude n = fminOne (fdivN n (nonLfeCount 8)) := by
  intro n
  exact ⟨rfl, rfl, rfl, rfl, rfl⟩

/-- Counterexample to C5 as stated: under saturating addition the equation
MAX + MAX == MAX is true, not false. -/
theorem C5_counterexample :
    Samp16.add Samp16.MAX Samp16.MAX = Samp16.MAX := by decide

/-- C5 amended: 16-bit addition saturates at the encoding bounds, so
MAX + MAX == MAX holds, new(24576) + new(16384) == MAX and
new(-16384) + new(-24576) == MIN. -/
theorem C5_amended :
    Samp16.add Samp16.MAX Samp16.MAX = Samp16.MAX ∧
    Samp16.add 24576 16384 = Samp16.MAX ∧
    Samp16.add (-16384) (-24576) = Samp16.MIN := by
  refine ⟨by decide, by decide, by decide⟩

/-- C6: 16-bit and 24-bit multiplication run in a wider integer type, are
divided by the encoding MAX magnitude and clamped into the encoding range:
multiplying two full-scale positive samples yields full scale for both
encodings, and every product of payloads lands inside the encoding range. -/
theorem C6_mul_full_scale :
    Samp16.mul Samp16.MAX Samp16.MAX = Samp16.MAX ∧
    Samp24.mul Samp24.MAX Samp24.MAX = Samp24.MAX ∧
    (∀ a b : Int, -32768 ≤ Samp16.mul a b ∧ Samp16.mul a b ≤ 32767) ∧
    (∀ a b : Int, -8388608 ≤ Samp24.mul a b ∧ Samp24.mul a b ≤ 8388607) := by
  refine ⟨by decide, by decide, ?_, ?_⟩
  · intro a b
    unfold Samp16.mul
    omega
  · intro a b
    unfold Samp24.mul
    omega


/-- C7: Frame::pan applies constant-power weights of the form
(cos theta, sin theta) to exactly two speakers, so the squared per-speaker
weights sum to one for every angle, and the angle is normalized into the
unit interval before arc dispatch (real-valued model of the f32 trig). -/
theorem C7_constant_power_pan : ∀ x samp l r : ℝ,
    (Real.cos (pan2theta x)) ^ 2 + (Real.sin (pan2theta x)) ^ 2 = 1 ∧
    0 ≤ Int.fract x ∧ Int.fract x < 1 ∧
    pan2 l r samp x =
      (l + samp * Real.cos (pan2theta x), r + samp * Real.sin (pan2theta x)) := by
  intro x samp l r
  exact ⟨Real.cos_sq_add_sin_sq _, Int.fract_nonneg x, Int.fract_lt_one x, rfl⟩

/-- C2: when no resampling has ever started (the started flag of channel 0
is zero) and the sink rate equals the source audio rate, Stream::pipe is the
direct format-converted copy of the input frames into the sink, and the
stream state is untouched: this holds for every process and filter oracle,
every sink and every frame conversion. -/
theorem C2_pipe_fast_path {F G σ : Type} (P : ProcessFn) (upd : UpdateFn)
    (st : Stream) (nch : Nat) (audio : AudioBuf F) (ops : SinkOps G σ)
    (conv : F → G) (deint : F → List ℚ) (reint : List ℚ → G) (s : σ)
    (hstart : st.startedFlag = 0)
    (hsink : ops.sample_rate s = st.output_sample_rate)
    (hrate : ops.sample_rate s = audio.sample_rate) :
    pipe P upd st nch audio ops conv deint reint s =
      some (directCopy ops audio conv s, st) := by
  unfold pipe directCopy
  rw [if_neg (not_ne_iff.mpr hsink), if_pos ⟨hstart, hrate⟩]

/-- Witness for C2: a concrete two-frame buffer piped through a fresh stream
into a matching-rate list sink. -/
theorem C2_pipe_fast_path_witness :
    @pipe Int Int (List Int) (fun st _ _ _ => ⟨st, [], 0⟩) (fun st _ _ => st)
      ⟨48000, none, (0, 1), [⟨⟨0, 0, 0⟩, [], []⟩], 0⟩ 1
      ⟨48000, [5, 6]⟩
      ⟨fun _ => 48000, fun l => l.length, fun s items => s ++ items⟩
      (fun x => x + 1) (fun _ => []) (fun _ => 0) [] =
    some (@directCopy Int Int (List Int)
      ⟨fun _ => 48000, fun l => l.length, fun s items => s ++ items⟩
      ⟨48000, [5, 6]⟩ (fun x => x + 1) [],
      ⟨48000, none, (0, 1), [⟨⟨0, 0, 0⟩, [], []⟩], 0⟩) :=
  C2_pipe_fast_path _ _ _ _ _ _ _ _ _ _ rfl rfl rfl

/-- C9: Stream::pipe checks the sink rate against the configured target rate
before any processing; on a mismatch it aborts (modelled by none) and no
output frame reaches the sink, for every oracle, stream, input and sink. -/
theorem C9_rate_mismatch {F G σ : Type} (P : ProcessFn) (upd : UpdateFn)
    (st : Stream) (nch : Nat) (audio : AudioBuf F) (ops : SinkOps G σ)
    (conv : F → G) (deint : F → List ℚ) (reint : List ℚ → G) (s : σ)
    (hne : ops.sample_rate s ≠ st.output_sample_rate) :
    pipe P upd st nch audio ops conv deint reint s = none := by
  unfold pipe
  rw [if_pos hne]

/-- Witness for C9: a sink declaring 44100 hertz piped from a stream whose
target is 48000 hertz aborts. -/
theorem C9_rate_mismatch_witness :
    @pipe Int Int (List Int) (fun st _ _ _ => ⟨st, [], 0⟩) (fun st _ _ => st)
      ⟨48000, none, (0, 1), [⟨⟨0, 0, 0⟩, [], []⟩], 0⟩ 1
      ⟨48000, [5, 6]⟩
      ⟨fun _ => 44100, fun l => l.length, fun s items => s ++ items⟩
      (fun x => x + 1) (fun _ => []) (fun _ => 0) [] = none :=
  C9_rate_mismatch _ _ _ _ _ _ _ _ _ _ (by decide)

/-- C8: on a started stream, Stream::flush replaces each of the first n
channel backlogs with exactly input_latency zero samples (the backlog is
cleared first, so exactly input_latency zeros are appended) and performs
exactly one resample-and-output step; and Stream::source_hz sets
input_latency to filt_len / 2 of the channel updated last at every actual
rate change, for every filter-update oracle. -/
theorem C8_flush {G σ : Type} (P : ProcessFn) (st : Stream) (nch : Nat)
    (ops : SinkOps G σ) (reint : List ℚ → G) (s : σ)
    (hstart : st.startedFlag ≠ 0) :
    flush P st nch ops reint s
      = (resampleAudio P (flushInputs st nch) nch ops reint s).1 ∧
    (∀ (i : Nat) (h : i < (flushInputs st nch).samples.length), i < nch →
      ((flushInputs st nch).samples.get ⟨i, h⟩).input
        = List.replicate st.input_latency 0) ∧
    (∀ (upd : UpdateFn) (hz : Nat), some hz ≠ st.input_sample_rate →
      (sourceHz upd st hz).input_latency
        = (((sourceHz upd st hz).samples.getLast?).map
            (fun ch => ch.state.filt_len / 2)).getD st.input_latency) := by
  refine ⟨?_, ?_, ?_⟩
  · unfold flush
    rw [if_neg hstart]
  · intro i h hi
    unfold flushInputs
    have hlen : i < st.samples.length := by
      have := h
      unfold flushInputs at this
      simpa [List.length_mapIdx] using this
    rw [List.get_mapIdx st.samples _ i hlen]
    rw [if_pos hi]
  · intro upd hz hne
    unfold sourceHz
    rw [if_pos hne]


/-- Witness for C8: a started single-channel stream with input latency 2
flushed into a list sink. -/
theorem C8_flush_witness :
    @flush Int (List Int) (fun st _ _ _ => ⟨st, [], 0⟩)
      ⟨48000, none, (0, 1), [⟨⟨0, 4, 1⟩, [3], []⟩], 2⟩ 1
      ⟨fun _ => 48000, fun l => l.length, fun s items => s ++ items⟩
      (fun _ => 0) []
      = (@resampleAudio Int (List Int) (fun st _ _ _ => ⟨st, [], 0⟩)
        (flushInputs ⟨48000, none, (0, 1), [⟨⟨0, 4, 1⟩, [3], []⟩], 2⟩ 1) 1
        ⟨fun _ => 48000, fun l => l.length, fun s items => s ++ items⟩
        (fun _ => 0) []).1 ∧
    (∀ (i : Nat)
      (h : i < (flushInputs ⟨48000, none, (0, 1), [⟨⟨0, 4, 1⟩, [3], []⟩], 2⟩
        1).samples.length), i < 1 →
      ((flushInputs ⟨48000, none, (0, 1), [⟨⟨0, 4, 1⟩, [3], []⟩], 2⟩
        1).samples.get ⟨i, h⟩).input = List.replicate 2 0) ∧
    (∀ (upd : UpdateFn) (hz : Nat), some hz ≠ none →
      (sourceHz upd ⟨48000, none, (0, 1), [⟨⟨0, 4, 1⟩, [3], []⟩], 2⟩
        hz).input_latency
        = (((sourceHz upd ⟨48000, none, (0, 1), [⟨⟨0, 4, 1⟩, [3], []⟩], 2⟩
          hz).samples.getLast?).map (fun ch => ch.state.filt_len / 2)).getD 2) :=
  C8_flush (fun st _ _ _ => ⟨st, [], 0⟩)
    ⟨48000, none, (0, 1), [⟨⟨0, 4, 1⟩, [3], []⟩], 2⟩ 1
    ⟨fun _ => 48000, fun l => l.length, fun s items => s ++ items⟩
    (fun _ => 0) [] (by decide)

end Fon
